import Mathlib

/-
Verification of the request-routing and worker-lifecycle core of the
cf-honox-vite repository (src/utils.ts and src/index.ts), as a shallow
embedding in Lean 4.

Modelling conventions:
  * JavaScript strings are Lean String values (operations that the source
    performs with regexes are embedded as explicit character-list
    recursions with the same semantics).
  * Web Headers / Node header objects are association lists whose keys
    model the lowercase-normalized key store of the runtime.
  * External collaborators that are not part of this repository (the
    minimatch glob engine, vite normalizePath, the WHATWG URL parser,
    node path.posix.join) are passed in as abstract function parameters,
    exactly at the call sites where the source invokes them.
  * Fallible external calls are modelled with Except; JS undefined is
    modelled with Option.
-/

/-! ## Generic association-list helpers (model of header stores) -/

def lookupAssoc {β : Type} (k : String) (hs : List (String × β)) : Option β :=
  match hs with
  | [] => none
  | e :: rest => if e.1 = k then some e.2 else lookupAssoc k rest

/-- Model of the set operation of a header store: replace the value of an
existing key, otherwise append the new entry. -/
def setAssoc {β : Type} (hs : List (String × β)) (k : String) (v : β) : List (String × β) :=
  match hs with
  | [] => [(k, v)]
  | e :: rest => if e.1 = k then (k, v) :: rest else e :: setAssoc rest k v

/-! ## String helpers shared by the embedded source functions -/

/-- Character-level prefix test: listStartsWith p t is true iff t begins
with p. Models JavaScript String.startsWith on the character level. -/
def listStartsWith : List Char → List Char → Bool
  | [], _ => true
  | _ :: _, [] => false
  | a :: as, b :: bs => a = b && listStartsWith as bs

/-- strStartsWith s p is true iff string s starts with string p. -/
def strStartsWith (s p : String) : Bool :=
  listStartsWith p.data s.data

/-- Character-level model of JavaScript String.toLowerCase (the header
names involved are ASCII). -/
def strToLower (s : String) : String :=
  String.mk (s.data.map Char.toLower)

/-- True iff the character list contains two adjacent slashes. -/
def hasAdjSlashes : List Char → Bool
  | [] => false
  | [_] => false
  | a :: b :: rest => (a = '/' && b = '/') || hasAdjSlashes (b :: rest)

/-! ## Embedding of src/utils.ts -/

/-- Model of src/utils.ts safeParseUrlPath. The WHATWG URL constructor
(an external collaborator that may throw) is the abstract parameter
urlRaises, returning the pathname or an error; the try/catch of the
source becomes a match on the Except value. -/
def safeParseUrlPath (urlRaises : String → Except String String) (value : String) :
    Option String :=
  match urlRaises value with
  | .ok pathname => some pathname
  | .error _ => none

/-- Model of the global regex replace of one-or-more slashes by a single
slash: the Bool argument records whether the previous character belonged
to a still-open slash run. The replace call of the source corresponds to
collapseSlashes false. -/
def collapseSlashes : Bool → List Char → List Char
  | _, [] => []
  | prevSlash, c :: rest =>
    if c = '/' then
      if prevSlash then collapseSlashes true rest
      else c :: collapseSlashes true rest
    else c :: collapseSlashes false rest

/-- Model of the regex replace removing a trailing run of slashes. -/
def dropTrailingSlashes (l : List Char) : List Char :=
  (l.reverse.dropWhile (fun c => c = '/')).reverse

/-- Model of src/utils.ts normalizeBasePath. The JS falsy check on the
optional string argument (undefined or empty string) gives the first two
empty cases. -/
def normalizeBasePath (base : Option String) : String :=
  match base with
  | none => ""
  | some b =>
    if b = "" then ""
    else if b = "/" then ""
    else
      let prefixed := if strStartsWith b "/" then b else "/" ++ b
      String.mk (dropTrailingSlashes (collapseSlashes false prefixed.data))

/-- A worker-bound request as the base-path rewriter sees it: method,
headers, body bytes, and the pathname component of its URL (the only URL
part the source touches). -/
structure WReq where
  method : String
  headers : List (String × String)
  body : Option (List Nat)
  pathname : String
  deriving DecidableEq

/-- Model of src/utils.ts createBasePathRewriter. Returns none when the
normalized base is empty (the source returns undefined), otherwise the
rewriting function. String.slice on a code-unit index is modelled as a
character-level drop. -/
def createBasePathRewriter (base : Option String) : Option (WReq → WReq) :=
  let normalizedBase := normalizeBasePath base
  if normalizedBase = "" then none
  else
    some (fun request =>
      if request.pathname = normalizedBase then
        { request with pathname := "/" }
      else if strStartsWith request.pathname (normalizedBase ++ "/") then
        let sliced := String.mk (request.pathname.data.drop normalizedBase.length)
        { request with pathname := if sliced = "" then "/" else sliced }
      else request)

/-- The rewriter as applied at its call site in src/index.ts: the
middleware only calls it when it is defined, so an undefined rewriter
leaves the request unchanged. -/
def rewriteForBase (base : Option String) (request : WReq) : WReq :=
  match createBasePathRewriter base with
  | none => request
  | some f => f request

/-- Model of src/utils.ts createBasePathGuard. The guard receives the
possibly-undefined pathname (Option String); the JS truthiness test on
it requires both presence and non-emptiness. -/
def createBasePathGuard (base : Option String) (pathname : Option String) : Bool :=
  let normalizedBase := normalizeBasePath base
  if normalizedBase = "" then true
  else
    match pathname with
    | none => false
    | some p => (!(p = "")) && (p = normalizedBase || strStartsWith p (normalizedBase ++ "/"))

/-! ## Embedding of src/index.ts: pattern matching -/

/-- A Pattern of src/index.ts is a RegExp or a glob string. The RegExp
engine is external, so a regex pattern carries its abstract test
function. -/
inductive Pattern where
  | regex (test : String → Bool)
  | glob (pat : String)

/-- Model of src/index.ts matchPattern. The minimatch glob engine with
the dot option enabled is the abstract parameter minimatchDot, applied
as minimatchDot target pat exactly like the source call. -/
def matchPattern (minimatchDot : String → String → Bool) (pattern : Pattern)
    (target : String) : Bool :=
  match pattern with
  | .regex test => test target
  | .glob pat => minimatchDot target pat

/-- Model of src/index.ts shouldIgnorePath; vite normalizePath is the
abstract parameter normalizePathFn. -/
def shouldIgnorePath (normalizePathFn : String → String)
    (minimatchDot : String → String → Bool) (filePath : String)
    (patterns : List Pattern) : Bool :=
  let normalized := normalizePathFn filePath
  patterns.any (fun pattern => matchPattern minimatchDot pattern normalized)

/-! ## Embedding of src/index.ts: createWorkerRequest -/

/-- A node request-header value: absent, a single string, or a repeated
header collected into an array. -/
inductive JsHeaderValue where
  | undef
  | str (value : String)
  | arr (values : List String)
  deriving DecidableEq

/-- The string a JsHeaderValue contributes once copied: a lone string
itself, an array joined with commas (Array.join with its default
separator). Never applied to the undefined case by the source. -/
def joinJsValue : JsHeaderValue → String
  | .undef => ""
  | .str s => s
  | .arr l => String.intercalate "," l

/-- The parts of a node IncomingMessage that createWorkerRequest reads:
possibly-absent method and url, the header object, and the body chunks
yielded by the request stream. -/
structure IncomingMessage where
  method : Option String
  url : Option String
  headers : List (String × JsHeaderValue)
  chunks : List (List Nat)

/-- The host-header part of the URL template of createWorkerRequest: an
absent or undefined entry defaults to localhost, and JS template
interpolation joins an array value with commas. -/
def hostHeaderValue (req : IncomingMessage) : String :=
  match lookupAssoc "host" req.headers with
  | some (.str s) => s
  | some (.arr l) => String.intercalate "," l
  | some .undef => "localhost"
  | none => "localhost"

/-- The fetch Request that createWorkerRequest constructs. -/
structure WorkerRequest where
  url : String
  method : String
  headers : List (String × String)
  body : Option (List Nat)
  deriving DecidableEq

/-- The header-copy loop body of createWorkerRequest: skip undefined
entries, copy string values, join array values with commas. -/
def workerHeaderStep (hs : List (String × String)) (e : String × JsHeaderValue) :
    List (String × String) :=
  match e.2 with
  | .undef => hs
  | .str v => setAssoc hs e.1 v
  | .arr l => setAssoc hs e.1 (String.intercalate "," l)

/-- Model of src/index.ts createWorkerRequest. -/
def createWorkerRequest (req : IncomingMessage) : WorkerRequest :=
  let method := req.method.getD "GET"
  let url := "http://" ++ hostHeaderValue req ++ req.url.getD "/"
  let headers := req.headers.foldl workerHeaderStep []
  let body := if method = "GET" ∨ method = "HEAD" then none else some req.chunks.flatten
  { url := url, method := method, headers := headers, body := body }

/-! ## Embedding of src/index.ts: client-script injection -/

/-- An emulator response as the injection branch sees it: status, the
lowercase-keyed header store, and the body read as text. -/
structure HtmlResponse where
  status : Nat
  headers : List (String × String)
  bodyText : String
  deriving DecidableEq

/-- Model of src/index.ts injectStringToResponse: same status, headers
copied minus content-length, body text with the content appended. -/
def injectStringToResponse (response : HtmlResponse) (content : String) : HtmlResponse :=
  { status := response.status
    headers := response.headers.filter (fun e => e.1 ≠ "content-length")
    bodyText := response.bodyText ++ content }

/-- The apostrophe character, written by code point. -/
def squote : Char := Char.ofNat 39

/-- The characters of the literal part of the CSP nonce regex: an
apostrophe followed by nonce- . -/
def nonceTagChars : List Char :=
  [squote, 'n', 'o', 'n', 'c', 'e', '-']

/-- After the literal tag has matched, the regex captures one or more
non-apostrophe characters followed by a closing apostrophe. -/
def captureAfterNonceTag (l : List Char) : Option (List Char) :=
  let cap := l.takeWhile (fun c => c ≠ squote)
  let rest := l.drop cap.length
  if cap ≠ [] ∧ rest.head? = some squote then some cap else none

/-- Leftmost-match search of the CSP nonce regex over the header text. -/
def findNonce : List Char → Option (List Char)
  | [] => none
  | c :: rest =>
    if listStartsWith nonceTagChars (c :: rest) then
      match captureAfterNonceTag ((c :: rest).drop nonceTagChars.length) with
      | some cap => some cap
      | none => findNonce rest
    else findNonce rest

/-- Model of the capture-group extraction on the
content-security-policy header value. -/
def extractNonce (s : String) : Option String :=
  (findNonce s.data).map String.mk

/-- The script string built by the injection branch, from the truthiness
test on the extracted nonce and the resolved client module path. -/
def scriptTag (nonce : Option String) (src : String) : String :=
  "<script" ++
    (match nonce with
     | some n => if n = "" then "" else " nonce=\"" ++ n ++ "\""
     | none => "") ++
    ">import(\"" ++ src ++ "\")</script>"

/-- The script the middleware builds for a response: the client module
path resolved against the vite base by the external path.posix.join
(abstract parameter), tagged with the nonce extracted from the CSP
header when present. -/
def clientScriptFor (posixJoin : String → String → String) (viteBase : String)
    (response : HtmlResponse) : String :=
  let viteScript := posixJoin viteBase "/@vite/client"
  let nonce := (lookupAssoc "content-security-policy" response.headers).bind extractNonce
  scriptTag nonce viteScript

/-- Model of the injection branch of the configureServer middleware
(src/index.ts lines 330-343): when enabled and the content-type matches
the anchored text/html regex, append the client script, else leave the
response untouched. -/
def maybeInjectClientScript (injectClientScript : Bool)
    (posixJoin : String → String → String) (viteBase : String)
    (response : HtmlResponse) : HtmlResponse :=
  if injectClientScript then
    match lookupAssoc "content-type" response.headers with
    | some contentType =>
      if strStartsWith contentType "text/html" then
        injectStringToResponse response (clientScriptFor posixJoin viteBase response)
      else response
    | none => response
  else response

/-! ## Embedding of src/index.ts: sendResponse -/

/-- A node response-header value: a single string or an array of
distinct occurrences. -/
inductive NodeHeaderValue where
  | str (value : String)
  | arr (values : List String)
  deriving DecidableEq

/-- A fetch Headers object split into its non-cookie entries (lowercase
keys) and the list of set-cookie values. -/
structure FetchHeaders where
  others : List (String × String)
  setCookies : List String
  deriving DecidableEq

/-- The single-value get accessor on set-cookie: null when absent,
otherwise the values combined with a comma separator. -/
def fetchHeadersGetSetCookie (h : FetchHeaders) : Option String :=
  if h.setCookies = [] then none
  else some (String.intercalate ", " h.setCookies)

/-- The entries the forEach iteration of a fetch Headers object yields:
each non-cookie entry once, and one combined set-cookie entry when any
cookie is present. -/
def fetchHeadersForEachEntries (h : FetchHeaders) : List (String × String) :=
  h.others ++
    (match fetchHeadersGetSetCookie h with
     | some s => [("set-cookie", s)]
     | none => [])

/-- An emulator response as sendResponse sees it, with a flag recording
whether the host environment provides the multi-value getSetCookie
accessor. -/
structure EmulatorResponse where
  status : Nat
  headers : FetchHeaders
  supportsGetSetCookie : Bool
  deriving DecidableEq

/-- The node ServerResponse state sendResponse writes: status code and
the headers installed by setHeader. -/
structure NativeResponse where
  statusCode : Nat
  headers : List (String × NodeHeaderValue)
  deriving DecidableEq

/-- Model of src/index.ts sendResponse (header and status part; body
streaming is an external node stream concern). An array result of
getSetCookie is always truthy in JS, even when empty; a string result of
the fallback accessor is truthy only when non-empty. -/
def sendSetCookieValue (response : EmulatorResponse) : Option NodeHeaderValue :=
  if response.supportsGetSetCookie then
    some (NodeHeaderValue.arr response.headers.setCookies)
  else
    match fetchHeadersGetSetCookie response.headers with
    | some s => if s = "" then none else some (NodeHeaderValue.str s)
    | none => none

/-- The forEach loop body of sendResponse: skip set-cookie (compared
case-insensitively), install every other header. -/
def sendHeaderStep (hs : List (String × NodeHeaderValue)) (e : String × String) :
    List (String × NodeHeaderValue) :=
  if strToLower e.1 = "set-cookie" then hs
  else setAssoc hs e.1 (NodeHeaderValue.str e.2)

def sendResponse (response : EmulatorResponse) : NativeResponse :=
  let afterCookie : List (String × NodeHeaderValue) :=
    match sendSetCookieValue response with
    | some v => setAssoc [] "set-cookie" v
    | none => []
  { statusCode := response.status
    headers := (fetchHeadersForEachEntries response.headers).foldl sendHeaderStep afterCookie }

/-! ## Embedding of src/index.ts: the rebuild state machine -/

/-- The mutable flags of the rebuild pipeline, together with the number
of bundler invocations currently in flight (the quantity the coalescing
invariant bounds). -/
structure BuildFlags where
  buildInProgress : Bool
  buildQueued : Bool
  inFlight : Nat
  deriving DecidableEq

/-- Model of a call to rebuildWorker (src/index.ts lines 230-235): while
a build is in progress the call only sets the queued flag; otherwise it
marks in-progress and starts one bundler invocation. The second
component counts the builds started by the call. -/
def rebuildWorkerCall (s : BuildFlags) : BuildFlags × Nat :=
  if s.buildInProgress then ({ s with buildQueued := true }, 0)
  else ({ s with buildInProgress := true, inFlight := s.inFlight + 1 }, 1)

/-- Model of the finally block of rebuildWorker (src/index.ts lines
263-269), run when the in-flight build completes, successfully or not:
clear the in-progress flag, and when the queued flag is set, clear it
and re-enter rebuildWorker. -/
def rebuildWorkerFinally (s : BuildFlags) : BuildFlags × Nat :=
  let cleared : BuildFlags :=
    { s with buildInProgress := false, inFlight := s.inFlight - 1 }
  if cleared.buildQueued then rebuildWorkerCall { cleared with buildQueued := false }
  else (cleared, 0)

/-- The observable events of the rebuild pipeline: a rebuild request
(a call to rebuildWorker) and the completion of the in-flight build,
carrying whether the bundler succeeded or threw. -/
inductive BuildEvent where
  | request
  | complete (success : Bool)
  deriving DecidableEq

/-- One step of the rebuild state machine. The finally block of the
source runs on success and on failure alike, so the completion handler
does not inspect the success flag. -/
def buildStep (s : BuildFlags) : BuildEvent → BuildFlags × Nat
  | .request => rebuildWorkerCall s
  | .complete _ => rebuildWorkerFinally s

/-- Run a list of events, accumulating the number of builds started. -/
def runBuild (s : BuildFlags) : List BuildEvent → BuildFlags × Nat
  | [] => (s, 0)
  | e :: rest =>
    let step := buildStep s e
    let tail := runBuild step.1 rest
    (tail.1, step.2 + tail.2)

/-- A trace is valid when every completion event occurs while a build is
actually in progress (the single-threaded event loop only delivers a
completion for the build it started). -/
def validTrace (s : BuildFlags) : List BuildEvent → Bool
  | [] => true
  | .request :: rest => validTrace (rebuildWorkerCall s).1 rest
  | .complete _ :: rest => s.buildInProgress && validTrace (rebuildWorkerFinally s).1 rest

/-- The coupling between the in-progress flag and the number of builds
in flight. -/
def flagsInv (s : BuildFlags) : Prop :=
  s.inFlight = (if s.buildInProgress then 1 else 0)

/-- The initial state of the plugin closure. -/
def initFlags : BuildFlags :=
  { buildInProgress := false, buildQueued := false, inFlight := 0 }

/-! ## Embedding of src/index.ts: the middleware routing decision -/

/-- What the middleware does with a request: hand it to the next handler
of the host dev server, or forward it to the worker pipeline. -/
inductive Decision where
  | next
  | worker
  deriving DecidableEq

/-- The environment of one middleware invocation: the abstract external
collaborators, the state read from the closure (whether the Miniflare
instance exists, the public directory path truthiness), and the
configured exclude patterns and base. -/
structure MiddlewareEnv where
  urlRaises : String → Except String String
  minimatchDot : String → String → Bool
  hasMf : Bool
  hasPublicDir : Bool
  publicFileExists : String → Bool
  excludePatterns : List Pattern
  base : Option String

/-- The exclude-pattern loop and base-path guard check of the middleware
(src/index.ts lines 316-324): a matching exclude pattern or a rejected
pathname hands the request to the next handler. -/
def middlewareGuardStage (env : MiddlewareEnv) (requrl : String) : Decision :=
  if env.excludePatterns.any (fun p => matchPattern env.minimatchDot p requrl) then .next
  else if createBasePathGuard env.base (safeParseUrlPath env.urlRaises requrl) then .worker
  else .next

/-- The routing decision of the configureServer middleware (src/index.ts
lines 304-324): the entry check on req.url truthiness and the Miniflare
instance, the public static-file check, then the guard stage. -/
def middlewareDecide (env : MiddlewareEnv) (requrl : Option String) : Decision :=
  match requrl with
  | none => .next
  | some u =>
    if u = "" then .next
    else if env.hasMf = false then .next
    else if env.hasPublicDir then
      match safeParseUrlPath env.urlRaises u with
      | some pathname =>
        if pathname ≠ "" ∧ env.publicFileExists pathname = true then .next
        else middlewareGuardStage env u
      | none => middlewareGuardStage env u
    else middlewareGuardStage env u

/-! ## Helper lemmas -/

theorem lookupAssoc_set_self {β : Type} (hs : List (String × β)) (k : String) (v : β) :
    lookupAssoc k (setAssoc hs k v) = some v := by
  induction hs with
  | nil => simp [lookupAssoc, setAssoc]
  | cons e rest ih =>
    by_cases he : e.1 = k
    · simp [lookupAssoc, setAssoc, he]
    · simp [lookupAssoc, setAssoc, he, ih]

theorem lookupAssoc_set_other {β : Type} (hs : List (String × β)) (k k' : String) (v : β)
    (hne : k' ≠ k) : lookupAssoc k' (setAssoc hs k v) = lookupAssoc k' hs := by
  have hkk : ¬ (k = k') := fun h => hne h.symm
  induction hs with
  | nil => simp [lookupAssoc, setAssoc, hkk]
  | cons e rest ih =>
    by_cases he : e.1 = k
    · simp [lookupAssoc, setAssoc, he, hkk]
    · simp [lookupAssoc, setAssoc, he, ih]

theorem listStartsWith_iff (p t : List Char) :
    listStartsWith p t = true ↔ ∃ rest, t = p ++ rest := by
  induction p generalizing t with
  | nil => simp [listStartsWith]
  | cons a as ih =>
    cases t with
    | nil => simp [listStartsWith]
    | cons b bs =>
      simp only [listStartsWith, Bool.and_eq_true, decide_eq_true_eq, ih]
      constructor
      · rintro ⟨rfl, rest, rfl⟩
        exact ⟨rest, rfl⟩
      · rintro ⟨rest, h⟩
        simp only [List.cons_append, List.cons.injEq] at h
        exact ⟨h.1.symm, rest, h.2⟩

theorem collapseSlashes_true_head (l : List Char) :
    (collapseSlashes true l).head? ≠ some '/' := by
  induction l with
  | nil => simp [collapseSlashes]
  | cons c rest ih =>
    by_cases hc : c = '/'
    · simpa [collapseSlashes, hc] using ih
    · simp [collapseSlashes, hc]

theorem hasAdjSlashes_cons (a : Char) (l : List Char) :
    hasAdjSlashes (a :: l) =
      ((decide (a = '/')) && (decide (l.head? = some '/')) || hasAdjSlashes l) := by
  cases l with
  | nil => simp [hasAdjSlashes]
  | cons b rest => simp [hasAdjSlashes]

theorem collapseSlashes_noAdj (l : List Char) :
    ∀ prev, hasAdjSlashes (collapseSlashes prev l) = false := by
  induction l with
  | nil => intro prev; simp [collapseSlashes, hasAdjSlashes]
  | cons c rest ih =>
    intro prev
    by_cases hc : c = '/'
    · cases prev with
      | true => simpa [collapseSlashes, hc] using ih true
      | false =>
        have hres : collapseSlashes false (c :: rest) = c :: collapseSlashes true rest := by
          simp [collapseSlashes, hc]
        rw [hres, hasAdjSlashes_cons]
        have h1 : decide ((collapseSlashes true rest).head? = some '/') = false := by
          simpa using collapseSlashes_true_head rest
        simp [h1, ih true]
    · have hres : collapseSlashes prev (c :: rest) = c :: collapseSlashes false rest := by
        simp [collapseSlashes, hc]
      rw [hres, hasAdjSlashes_cons]
      simp [hc, ih false]

theorem hasAdjSlashes_append_left (p s : List Char)
    (h : hasAdjSlashes (p ++ s) = false) : hasAdjSlashes p = false := by
  induction p with
  | nil => simp [hasAdjSlashes]
  | cons a t ih =>
    cases t with
    | nil => simp [hasAdjSlashes]
    | cons b t2 =>
      simp only [List.cons_append, hasAdjSlashes, Bool.or_eq_false_iff] at h ⊢
      exact ⟨h.1, ih (by simpa using h.2)⟩

theorem head?_dropWhile_false {p : Char → Bool} (l : List Char) (a : Char)
    (h : (l.dropWhile p).head? = some a) : p a = false := by
  induction l with
  | nil => simp [List.dropWhile] at h
  | cons c rest ih =>
    cases hpc : p c with
    | true =>
      simp only [List.dropWhile, hpc] at h
      exact ih h
    | false =>
      simp only [List.dropWhile, hpc, List.head?_cons, Option.some.injEq] at h
      exact h ▸ hpc

theorem dropWhile_eq_nil_all {p : Char → Bool} (l : List Char)
    (h : l.dropWhile p = []) : ∀ c ∈ l, p c = true := by
  induction l with
  | nil => simp
  | cons c rest ih =>
    cases hpc : p c with
    | true =>
      simp only [List.dropWhile, hpc] at h
      intro x hx
      rcases List.mem_cons.mp hx with rfl | hx2
      · exact hpc
      · exact ih h x hx2
    | false => simp [List.dropWhile, hpc] at h

theorem dropTrailingSlashes_decomp (l : List Char) :
    l = dropTrailingSlashes l ++ (l.reverse.takeWhile (fun c => c = '/')).reverse := by
  have h := List.takeWhile_append_dropWhile (fun c : Char => decide (c = '/')) l.reverse
  calc l = l.reverse.reverse := (List.reverse_reverse l).symm
    _ = (l.reverse.takeWhile (fun c : Char => decide (c = '/')) ++
          l.reverse.dropWhile (fun c : Char => decide (c = '/'))).reverse := by rw [h]
    _ = dropTrailingSlashes l ++ (l.reverse.takeWhile (fun c => c = '/')).reverse := by
          rw [List.reverse_append]; rfl

theorem dropTrailingSlashes_noAdj (l : List Char)
    (h : hasAdjSlashes l = false) : hasAdjSlashes (dropTrailingSlashes l) = false := by
  have hd := dropTrailingSlashes_decomp l
  exact hasAdjSlashes_append_left _ _ (hd ▸ h)

theorem dropTrailingSlashes_getLast (l : List Char) :
    (dropTrailingSlashes l).getLast? ≠ some '/' := by
  unfold dropTrailingSlashes
  rw [List.getLast?_reverse]
  intro h
  have := head?_dropWhile_false _ _ h
  simp at this

theorem dropTrailingSlashes_ne_nil (l : List Char) (c : Char) (hc : c ∈ l) (hne : c ≠ '/') :
    dropTrailingSlashes l ≠ [] := by
  intro hnil
  unfold dropTrailingSlashes at hnil
  have h0 : l.reverse.dropWhile (fun c => c = '/') = [] :=
    List.reverse_eq_nil_iff.mp hnil
  have := dropWhile_eq_nil_all _ h0 c (List.mem_reverse.mpr hc)
  simp at this
  exact hne this

theorem collapseSlashes_mem_nonslash (l : List Char) (c : Char) :
    ∀ prev, c ∈ l → c ≠ '/' → ∃ d ∈ collapseSlashes prev l, d ≠ '/' := by
  induction l with
  | nil => intro prev hc _; simp at hc
  | cons a rest ih =>
    intro prev hc hne
    by_cases ha : a = '/'
    · have hrest : c ∈ rest := by
        rcases List.mem_cons.mp hc with rfl | h2
        · exact absurd ha hne
        · exact h2
      rcases ih true hrest hne with ⟨d, hd, hdne⟩
      cases prev with
      | true =>
        refine ⟨d, ?_, hdne⟩
        simpa [collapseSlashes, ha] using hd
      | false =>
        refine ⟨d, ?_, hdne⟩
        have hres : collapseSlashes false (a :: rest) = a :: collapseSlashes true rest := by
          simp [collapseSlashes, ha]
        rw [hres]
        exact List.mem_cons_of_mem a hd
    · refine ⟨a, ?_, ha⟩
      have hres : collapseSlashes prev (a :: rest) = a :: collapseSlashes false rest := by
        simp [collapseSlashes, ha]
      rw [hres]
      exact List.mem_cons_self a _

theorem head?_append_left {α : Type} (d t : List α) (hd : d ≠ []) :
    (d ++ t).head? = d.head? := by
  cases d with
  | nil => exact absurd rfl hd
  | cons a d2 => simp

theorem normalizeBasePath_some_eq (b : String) (h1 : b ≠ "") (h2 : b ≠ "/") :
    normalizeBasePath (some b) =
      String.mk (dropTrailingSlashes (collapseSlashes false
        (if strStartsWith b "/" then b else "/" ++ b).data)) := by
  simp [normalizeBasePath, h1, h2]

theorem prefixed_data_head (b : String) :
    ∃ tail, (if strStartsWith b "/" then b else "/" ++ b).data = '/' :: tail := by
  by_cases hb : strStartsWith b "/"
  · simp only [hb, if_true]
    rcases (listStartsWith_iff "/".data b.data).mp hb with ⟨rest, hr⟩
    exact ⟨rest, by simpa using hr⟩
  · simp only [hb, if_false]
    exact ⟨b.data, by simp [String.data_append]⟩

theorem prefixed_mem (b : String) (c : Char) (hc : c ∈ b.data) :
    c ∈ (if strStartsWith b "/" then b else "/" ++ b).data := by
  by_cases hb : strStartsWith b "/"
  · simpa [hb] using hc
  · simp [hb, String.data_append]
    exact Or.inr hc

theorem normalizeBasePath_props (b : String) (h1 : b ≠ "") (h2 : b ≠ "/") :
    hasAdjSlashes (normalizeBasePath (some b)).data = false ∧
    (normalizeBasePath (some b)).data.getLast? ≠ some '/' ∧
    ((∃ c ∈ b.data, c ≠ '/') → (normalizeBasePath (some b)).data.head? = some '/') := by
  rw [normalizeBasePath_some_eq b h1 h2]
  refine ⟨?_, ?_, ?_⟩
  · exact dropTrailingSlashes_noAdj _ (collapseSlashes_noAdj _ false)
  · exact dropTrailingSlashes_getLast _
  · rintro ⟨c, hc, hne⟩
    have hmem : c ∈ (if strStartsWith b "/" then b else "/" ++ b).data :=
      prefixed_mem b c hc
    rcases collapseSlashes_mem_nonslash _ c false hmem hne with ⟨d, hd, hdne⟩
    have hnil : dropTrailingSlashes
        (collapseSlashes false (if strStartsWith b "/" then b else "/" ++ b).data) ≠ [] :=
      dropTrailingSlashes_ne_nil _ d hd hdne
    have hdecomp := dropTrailingSlashes_decomp
      (collapseSlashes false (if strStartsWith b "/" then b else "/" ++ b).data)
    have hhead : (collapseSlashes false
        (if strStartsWith b "/" then b else "/" ++ b).data).head? = some '/' := by
      rcases prefixed_data_head b with ⟨tail, htail⟩
      rw [htail]
      simp [collapseSlashes]
    show (dropTrailingSlashes (collapseSlashes false
        (if strStartsWith b "/" then b else "/" ++ b).data)).head? = some '/'
    calc (dropTrailingSlashes (collapseSlashes false
            (if strStartsWith b "/" then b else "/" ++ b).data)).head?
        = (dropTrailingSlashes (collapseSlashes false
            (if strStartsWith b "/" then b else "/" ++ b).data) ++
           ((collapseSlashes false
            (if strStartsWith b "/" then b else "/" ++ b).data).reverse.takeWhile
              (fun c => c = '/')).reverse).head? := (head?_append_left _ _ hnil).symm
      _ = (collapseSlashes false
            (if strStartsWith b "/" then b else "/" ++ b).data).head? := by rw [← hdecomp]
      _ = some '/' := hhead

theorem rewriteForBase_eq (base : Option String) (r : WReq)
    (hB : normalizeBasePath base ≠ "") :
    rewriteForBase base r =
      (if r.pathname = normalizeBasePath base then { r with pathname := "/" }
       else if strStartsWith r.pathname (normalizeBasePath base ++ "/") then
         { r with pathname :=
             if String.mk (r.pathname.data.drop (normalizeBasePath base).length) = "" then "/"
             else String.mk (r.pathname.data.drop (normalizeBasePath base).length) }
       else r) := by
  simp [rewriteForBase, createBasePathRewriter, hB]

theorem strStartsWith_base_slash (p B : String)
    (hpre : strStartsWith p (B ++ "/") = true) :
    ∃ rest, p.data = B.data ++ '/' :: rest := by
  rcases (listStartsWith_iff (B ++ "/").data p.data).mp hpre with ⟨rest, hr⟩
  refine ⟨rest, ?_⟩
  rw [hr, String.data_append]
  simp

/-- Claim C2: for a base normalizing to the empty string, rewriting is
the identity; for a non-empty normalized base B, a pathname equal to B
rewrites to the root path, a pathname starting with B followed by a
slash has the prefix B stripped (the fallback to the root path covering
an empty remainder, which the prefix shape in fact rules out), any other
pathname leaves the request unchanged, and in every case method, headers
and body are preserved. -/
theorem basePathRewriter_C2 : ∀ (base : Option String) (r : WReq),
    (normalizeBasePath base = "" → rewriteForBase base r = r) ∧
    (normalizeBasePath base ≠ "" → r.pathname = normalizeBasePath base →
      (rewriteForBase base r).pathname = "/") ∧
    (normalizeBasePath base ≠ "" →
      strStartsWith r.pathname (normalizeBasePath base ++ "/") = true →
      (rewriteForBase base r).pathname ≠ "" ∧
      (rewriteForBase base r).pathname.data =
        r.pathname.data.drop (normalizeBasePath base).length) ∧
    (normalizeBasePath base ≠ "" → r.pathname ≠ normalizeBasePath base →
      strStartsWith r.pathname (normalizeBasePath base ++ "/") = false →
      rewriteForBase base r = r) ∧
    ((rewriteForBase base r).method = r.method ∧
      (rewriteForBase base r).headers = r.headers ∧
      (rewriteForBase base r).body = r.body) := by
  intro base r
  refine ⟨?_, ?_, ?_, ?_, ?_⟩
  · intro hB
    simp [rewriteForBase, createBasePathRewriter, hB]
  · intro hB heq
    rw [rewriteForBase_eq base r hB]
    simp [heq]
  · intro hB hpre
    rcases strStartsWith_base_slash _ _ hpre with ⟨rest, hdata⟩
    have hne : r.pathname ≠ normalizeBasePath base := by
      intro heq
      have : (normalizeBasePath base).data = (normalizeBasePath base).data ++ '/' :: rest := by
        rw [← hdata, heq]
      have hlen := congrArg List.length this
      simp at hlen
    have hdrop : r.pathname.data.drop (normalizeBasePath base).length = '/' :: rest := by
      rw [hdata]
      exact List.drop_left _ _
    have hmk : String.mk (r.pathname.data.drop (normalizeBasePath base).length) ≠ "" := by
      rw [hdrop]
      intro hcon
      exact List.cons_ne_nil _ _ (congrArg String.data hcon)
    rw [rewriteForBase_eq base r hB]
    simp [hne, hpre, hmk]
  · intro hB hne hpre
    rw [rewriteForBase_eq base r hB]
    simp [hne, hpre]
  · by_cases hB : normalizeBasePath base = ""
    · simp [rewriteForBase, createBasePathRewriter, hB]
    · rw [rewriteForBase_eq base r hB]
      split_ifs <;> simp

/-- Witness for C2 at the concrete base /app and a request to /app/x:
the prefix is stripped, leaving /x. -/
theorem basePathRewriter_C2_witness :
    (rewriteForBase (some "/app") (WReq.mk "GET" [("a", "b")] none "/app/x")).pathname ≠ "" ∧
    (rewriteForBase (some "/app") (WReq.mk "GET" [("a", "b")] none "/app/x")).pathname.data =
      ("/app/x" : String).data.drop (normalizeBasePath (some "/app")).length :=
  (basePathRewriter_C2 (some "/app") (WReq.mk "GET" [("a", "b")] none "/app/x")).2.2.1
    (by decide) (by decide)

/-- Claim C3: the guard built from a base normalizing to the empty
string accepts everything; for a non-empty normalized base it accepts a
pathname iff it equals the base or starts with the base followed by a
slash; concretely with base /app it accepts /app and /app/x and rejects
/appx and /other. -/
theorem basePathGuard_C3 :
    (∀ (base : Option String) (p : Option String),
        normalizeBasePath base = "" → createBasePathGuard base p = true) ∧
    (∀ (base : Option String) (p : String), normalizeBasePath base ≠ "" →
        (createBasePathGuard base (some p) = true ↔
          p = normalizeBasePath base ∨
            strStartsWith p (normalizeBasePath base ++ "/") = true)) ∧
    createBasePathGuard (some "/app") (some "/app") = true ∧
    createBasePathGuard (some "/app") (some "/app/x") = true ∧
    createBasePathGuard (some "/app") (some "/appx") = false ∧
    createBasePathGuard (some "/app") (some "/other") = false := by
  refine ⟨?_, ?_, by decide, by decide, by decide, by decide⟩
  · intro base p h
    simp [createBasePathGuard, h]
  · intro base p hB
    simp only [createBasePathGuard, hB, if_false, Bool.and_eq_true, Bool.or_eq_true,
      Bool.not_eq_true', decide_eq_false_iff_not, decide_eq_true_eq]
    constructor
    · rintro ⟨_, h⟩
      exact h
    · intro h
      refine ⟨?_, h⟩
      rcases h with heq | hpre
      · rw [heq]; exact hB
      · rcases strStartsWith_base_slash _ _ hpre with ⟨rest, hdata⟩
        intro hcon
        rw [hcon] at hdata
        exact (List.append_ne_nil_of_right_ne_nil _ (List.cons_ne_nil _ _)) hdata.symm

/-- Witness for C3 at the concrete base /app: the iff applied at the
pathname /app/x. -/
theorem basePathGuard_C3_witness :
    createBasePathGuard (some "/app") (some "/app/x") = true ↔
      "/app/x" = normalizeBasePath (some "/app") ∨
        strStartsWith "/app/x" (normalizeBasePath (some "/app") ++ "/") = true :=
  basePathGuard_C3.2.1 (some "/app") "/app/x" (by decide)

/-- Claim C4: normalizeBasePath sends undefined, the empty string and
the lone slash to the empty string; foo gains a leading slash and
/foo//bar/ collapses and loses its trailing slash; and for every other
input the result has no repeated slashes, no trailing slash, and (as
soon as the input has any non-slash character) starts with exactly one
slash. -/
theorem normalizeBasePath_C4 :
    normalizeBasePath none = "" ∧
    normalizeBasePath (some "") = "" ∧
    normalizeBasePath (some "/") = "" ∧
    normalizeBasePath (some "foo") = "/foo" ∧
    normalizeBasePath (some "/foo//bar/") = "/foo/bar" ∧
    ∀ b : String, b ≠ "" → b ≠ "/" →
      hasAdjSlashes (normalizeBasePath (some b)).data = false ∧
      (normalizeBasePath (some b)).data.getLast? ≠ some '/' ∧
      ((∃ c ∈ b.data, c ≠ '/') → (normalizeBasePath (some b)).data.head? = some '/') := by
  refine ⟨by decide, by decide, by decide, by decide, by decide, ?_⟩
  intro b h1 h2
  exact normalizeBasePath_props b h1 h2

/-- Witness for C4 at the concrete input foo//: no repeated slashes,
no trailing slash, and a single leading slash. -/
theorem normalizeBasePath_C4_witness :
    hasAdjSlashes (normalizeBasePath (some "foo//")).data = false ∧
    (normalizeBasePath (some "foo//")).data.head? = some '/' :=
  ⟨(normalizeBasePath_C4.2.2.2.2.2 "foo//" (by decide) (by decide)).1,
    (normalizeBasePath_C4.2.2.2.2.2 "foo//" (by decide) (by decide)).2.2 (by decide)⟩

/-- Claim C8: the pattern matcher is true iff at least one pattern of
the list matches the target under its own kind of rule (an abstract
regex test for RegExp patterns, the dot-enabled minimatch call for glob
strings), and is false on the empty list; shouldIgnorePath applies the
same any-semantics to the normalized path. Purity and determinism hold
because the embedding is a total function of its arguments. -/
theorem matchPattern_C8 :
    ∀ (minimatchDot : String → String → Bool) (normalizePathFn : String → String)
      (patterns : List Pattern) (target : String),
    (patterns.any (fun p => matchPattern minimatchDot p target) = true ↔
      ∃ p ∈ patterns, matchPattern minimatchDot p target = true) ∧
    (([] : List Pattern).any (fun p => matchPattern minimatchDot p target) = false) ∧
    (∀ test : String → Bool,
      matchPattern minimatchDot (Pattern.regex test) target = test target) ∧
    (∀ pat : String,
      matchPattern minimatchDot (Pattern.glob pat) target = minimatchDot target pat) ∧
    (shouldIgnorePath normalizePathFn minimatchDot target patterns = true ↔
      ∃ p ∈ patterns, matchPattern minimatchDot p (normalizePathFn target) = true) := by
  intro minimatchDot normalizePathFn patterns target
  refine ⟨List.any_eq_true, rfl, fun _ => rfl, fun _ => rfl, ?_⟩
  exact List.any_eq_true

/-- Claim C10: a request with an absent (or empty, the same JS falsiness)
URL, or one arriving before any Miniflare instance exists, is passed to
the next handler immediately and never reaches the worker pipeline. -/
theorem middlewareEntry_C10 :
    ∀ (env : MiddlewareEnv) (requrl : Option String),
      requrl = none ∨ env.hasMf = false →
      middlewareDecide env requrl = Decision.next := by
  intro env requrl h
  rcases h with rfl | hmf
  · rfl
  · cases requrl with
    | none => rfl
    | some u =>
      by_cases hu : u = ""
      · simp [middlewareDecide, hu]
      · simp [middlewareDecide, hu, hmf]

/-- Witness for C10: a concrete environment without a Miniflare
instance passes a concrete request through. -/
theorem middlewareEntry_C10_witness :
    middlewareDecide
      (MiddlewareEnv.mk (fun u => Except.ok u) (fun _ _ => false) false false
        (fun _ => false) [] none)
      (some "/index.html") = Decision.next :=
  middlewareEntry_C10
    (MiddlewareEnv.mk (fun u => Except.ok u) (fun _ _ => false) false false
      (fun _ => false) [] none)
    (some "/index.html") (Or.inr rfl)

/-- Claim C9 (amended): safeParseUrlPath turns a parser success into the
pathname and a parser exception into the explicit undefined result
rather than a thrown error, and whenever a non-empty base path is
configured the middleware passes a request with an unparseable URL
through to the host dev server. (As stated, the claim fails for the
default empty base: see the counterexample theorem.) -/
theorem safeParseUrlPath_C9 : ∀ (env : MiddlewareEnv) (u : String),
    (∀ p, env.urlRaises u = Except.ok p → safeParseUrlPath env.urlRaises u = some p) ∧
    (∀ e, env.urlRaises u = Except.error e → safeParseUrlPath env.urlRaises u = none) ∧
    (normalizeBasePath env.base ≠ "" → safeParseUrlPath env.urlRaises u = none →
      middlewareDecide env (some u) = Decision.next) := by
  intro env u
  refine ⟨?_, ?_, ?_⟩
  · intro p h
    simp [safeParseUrlPath, h]
  · intro e h
    simp [safeParseUrlPath, h]
  · intro hB hnone
    have hguard : createBasePathGuard env.base none = false := by
      simp [createBasePathGuard, hB]
    by_cases hu : u = ""
    · simp [middlewareDecide, hu]
    · by_cases hmf : env.hasMf = false
      · simp [middlewareDecide, hu, hmf]
      · by_cases hpd : env.hasPublicDir
        · simp [middlewareDecide, hu, hmf, hpd, hnone, middlewareGuardStage, hguard]
        · simp [middlewareDecide, hu, hmf, hpd, middlewareGuardStage, hnone, hguard]

/-- Counterexample for C9 as stated: with the default (empty) base the
guard accepts every request, so a request whose URL the parser rejects
is still forwarded to the worker, not passed through to the host dev
server. -/
theorem safeParseUrlPath_C9_counterexample :
    safeParseUrlPath (fun _ => Except.error "invalid URL") "http://bad" = none ∧
    middlewareDecide
      (MiddlewareEnv.mk (fun _ => Except.error "invalid URL") (fun _ _ => false) true false
        (fun _ => false) [] none)
      (some "http://bad") = Decision.worker :=
  ⟨rfl, rfl⟩

/-- Witness for C9: with the configured base /app, a concrete
unparseable request URL is passed through. -/
theorem safeParseUrlPath_C9_witness :
    middlewareDecide
      (MiddlewareEnv.mk (fun _ => Except.error "invalid URL") (fun _ _ => false) true false
        (fun _ => false) [] (some "/app"))
      (some "http://bad") = Decision.next :=
  (safeParseUrlPath_C9
    (MiddlewareEnv.mk (fun _ => Except.error "invalid URL") (fun _ _ => false) true false
      (fun _ => false) [] (some "/app"))
    "http://bad").2.2 (by decide) rfl

theorem workerHeaderStep_eq (hs : List (String × String)) (k : String) (v : JsHeaderValue)
    (hv : v ≠ JsHeaderValue.undef) :
    workerHeaderStep hs (k, v) = setAssoc hs k (joinJsValue v) := by
  cases v with
  | undef => exact absurd rfl hv
  | str s => rfl
  | arr l => rfl

theorem workerHeaders_fold_notmem (entries : List (String × JsHeaderValue))
    (acc : List (String × String)) (k : String)
    (h : ∀ e ∈ entries, e.1 ≠ k) :
    lookupAssoc k (entries.foldl workerHeaderStep acc) = lookupAssoc k acc := by
  induction entries generalizing acc with
  | nil => rfl
  | cons e rest ih =>
    obtain ⟨ek, ev⟩ := e
    have hek : ek ≠ k := h (ek, ev) (List.mem_cons_self _ _)
    have hrest : ∀ x ∈ rest, x.1 ≠ k := fun x hx => h x (List.mem_cons_of_mem _ hx)
    rw [List.foldl_cons, ih _ hrest]
    cases ev with
    | undef => rfl
    | str v =>
      show lookupAssoc k (setAssoc acc ek v) = lookupAssoc k acc
      exact lookupAssoc_set_other acc ek k v (Ne.symm hek)
    | arr l =>
      show lookupAssoc k (setAssoc acc ek (String.intercalate "," l)) = lookupAssoc k acc
      exact lookupAssoc_set_other acc ek k _ (Ne.symm hek)

theorem workerHeaders_fold_mem (entries : List (String × JsHeaderValue)) (k : String)
    (v : JsHeaderValue) (hnd : (entries.map Prod.fst).Nodup) (hmem : (k, v) ∈ entries)
    (hv : v ≠ JsHeaderValue.undef) :
    ∀ acc, lookupAssoc k (entries.foldl workerHeaderStep acc) = some (joinJsValue v) := by
  induction entries with
  | nil => simp at hmem
  | cons e rest ih =>
    intro acc
    obtain ⟨ek, ev⟩ := e
    simp only [List.map_cons, List.nodup_cons] at hnd
    rcases List.mem_cons.mp hmem with heq | hmem2
    · have hk : k = ek := congrArg Prod.fst heq
      have hveq : v = ev := congrArg Prod.snd heq
      subst hk
      subst hveq
      have hrest : ∀ x ∈ rest, x.1 ≠ k := by
        intro x hx hxk
        exact hnd.1 (hxk ▸ List.mem_map_of_mem Prod.fst hx)
      rw [List.foldl_cons, workerHeaders_fold_notmem rest _ k hrest,
        workerHeaderStep_eq acc k v hv]
      exact lookupAssoc_set_self acc k (joinJsValue v)
    · rw [List.foldl_cons]
      exact ih hnd.2 hmem2 _

/-- Claim C5: the worker request carries an absolute URL built from the
host header (defaulting to localhost) and the raw request path; every
present incoming header is copied, repeated values joined by commas; and
a body is forwarded exactly when the method is neither GET nor HEAD, in
which case it is the concatenation of all body chunks, unchanged. -/
theorem createWorkerRequest_C5 : ∀ req : IncomingMessage,
    (createWorkerRequest req).method = req.method.getD "GET" ∧
    (lookupAssoc "host" req.headers = none →
      (createWorkerRequest req).url = "http://" ++ "localhost" ++ req.url.getD "/") ∧
    (∀ s, lookupAssoc "host" req.headers = some (JsHeaderValue.str s) →
      (createWorkerRequest req).url = "http://" ++ s ++ req.url.getD "/") ∧
    ((req.headers.map Prod.fst).Nodup →
      ∀ k v, (k, v) ∈ req.headers → v ≠ JsHeaderValue.undef →
        lookupAssoc k (createWorkerRequest req).headers = some (joinJsValue v)) ∧
    ((createWorkerRequest req).body = none ↔
      req.method.getD "GET" = "GET" ∨ req.method.getD "GET" = "HEAD") ∧
    (¬ (req.method.getD "GET" = "GET" ∨ req.method.getD "GET" = "HEAD") →
      (createWorkerRequest req).body = some req.chunks.flatten) := by
  intro req
  refine ⟨rfl, ?_, ?_, ?_, ?_, ?_⟩
  · intro h
    simp [createWorkerRequest, hostHeaderValue, h]
  · intro s h
    simp [createWorkerRequest, hostHeaderValue, h]
  · intro hnd k v hmem hv
    exact workerHeaders_fold_mem req.headers k v hnd hmem hv []
  · by_cases h : req.method.getD "GET" = "GET" ∨ req.method.getD "GET" = "HEAD"
    · simp [createWorkerRequest, h]
    · simp [createWorkerRequest, h]
  · intro h
    simp [createWorkerRequest, h]

/-- Witness for C5: a concrete POST request with a host header, a
repeated header, and two body chunks. -/
theorem createWorkerRequest_C5_witness :
    (createWorkerRequest
      (IncomingMessage.mk (some "POST") (some "/submit")
        [("host", JsHeaderValue.str "example.com"), ("x-a", JsHeaderValue.arr ["1", "2"])]
        [[1, 2], [3]])).url =
      "http://" ++ "example.com" ++ (some "/submit").getD "/" ∧
    lookupAssoc "x-a"
      (createWorkerRequest
        (IncomingMessage.mk (some "POST") (some "/submit")
          [("host", JsHeaderValue.str "example.com"), ("x-a", JsHeaderValue.arr ["1", "2"])]
          [[1, 2], [3]])).headers = some (joinJsValue (JsHeaderValue.arr ["1", "2"])) ∧
    (createWorkerRequest
      (IncomingMessage.mk (some "POST") (some "/submit")
        [("host", JsHeaderValue.str "example.com"), ("x-a", JsHeaderValue.arr ["1", "2"])]
        [[1, 2], [3]])).body = some ([[1, 2], [3]] : List (List Nat)).flatten :=
  ⟨(createWorkerRequest_C5 _).2.2.1 "example.com" (by decide),
    (createWorkerRequest_C5 _).2.2.2.1 (by decide) "x-a" (JsHeaderValue.arr ["1", "2"])
      (by decide) (by decide),
    (createWorkerRequest_C5 _).2.2.2.2.2 (by decide)⟩

theorem sendHeaders_fold_skip (entries : List (String × String))
    (acc : List (String × NodeHeaderValue)) (k : String)
    (h : ∀ e ∈ entries, strToLower e.1 = "set-cookie" ∨ e.1 ≠ k) :
    lookupAssoc k (entries.foldl sendHeaderStep acc) = lookupAssoc k acc := by
  induction entries generalizing acc with
  | nil => rfl
  | cons e rest ih =>
    obtain ⟨ek, ev⟩ := e
    have he := h (ek, ev) (List.mem_cons_self _ _)
    have hrest : ∀ x ∈ rest, strToLower x.1 = "set-cookie" ∨ x.1 ≠ k :=
      fun x hx => h x (List.mem_cons_of_mem _ hx)
    rw [List.foldl_cons, ih _ hrest]
    by_cases hsc : strToLower ek = "set-cookie"
    · show lookupAssoc k (if strToLower ek = "set-cookie" then acc
        else setAssoc acc ek (NodeHeaderValue.str ev)) = lookupAssoc k acc
      rw [if_pos hsc]
    · have hek : ek ≠ k := by
        rcases he with h1 | h1
        · exact absurd h1 hsc
        · exact h1
      show lookupAssoc k (if strToLower ek = "set-cookie" then acc
        else setAssoc acc ek (NodeHeaderValue.str ev)) = lookupAssoc k acc
      rw [if_neg hsc]
      exact lookupAssoc_set_other acc ek k _ (Ne.symm hek)

theorem sendHeaders_fold_mem (entries : List (String × String)) (k : String) (v : String)
    (hk : strToLower k ≠ "set-cookie") (hnd : (entries.map Prod.fst).Nodup)
    (hmem : (k, v) ∈ entries) :
    ∀ acc, lookupAssoc k (entries.foldl sendHeaderStep acc) =
      some (NodeHeaderValue.str v) := by
  induction entries with
  | nil => simp at hmem
  | cons e rest ih =>
    intro acc
    obtain ⟨ek, ev⟩ := e
    simp only [List.map_cons, List.nodup_cons] at hnd
    rcases List.mem_cons.mp hmem with heq | hmem2
    · have h1 : k = ek := congrArg Prod.fst heq
      have h2 : v = ev := congrArg Prod.snd heq
      subst h1
      subst h2
      have hrest : ∀ x ∈ rest, strToLower x.1 = "set-cookie" ∨ x.1 ≠ k := by
        intro x hx
        right
        intro hxk
        exact hnd.1 (hxk ▸ List.mem_map_of_mem Prod.fst hx)
      rw [List.foldl_cons, sendHeaders_fold_skip rest _ k hrest]
      show lookupAssoc k (if strToLower k = "set-cookie" then acc
        else setAssoc acc k (NodeHeaderValue.str v)) = some (NodeHeaderValue.str v)
      rw [if_neg hk]
      exact lookupAssoc_set_self acc k _
    · rw [List.foldl_cons]
      exact ih hnd.2 hmem2 _

theorem toLower_ne_of_setCookie {k : String} (hk : strToLower k ≠ "set-cookie") :
    k ≠ "set-cookie" := by
  intro hcon
  rw [hcon] at hk
  exact hk (by decide)

/-- Claim C6: sendResponse copies the status code; every non-set-cookie
response header is copied directly to the native response; set-cookie is
installed through the multi-value accessor when the environment
provides it (preserving each cookie as a distinct occurrence of an
array value), and through the single-value accessor otherwise. -/
theorem sendResponse_C6 : ∀ response : EmulatorResponse,
    (sendResponse response).statusCode = response.status ∧
    ((response.headers.others.map Prod.fst).Nodup →
      (∀ e ∈ response.headers.others, strToLower e.1 ≠ "set-cookie") →
      (∀ k v, (k, v) ∈ response.headers.others →
        lookupAssoc k (sendResponse response).headers = some (NodeHeaderValue.str v)) ∧
      (response.supportsGetSetCookie = true →
        lookupAssoc "set-cookie" (sendResponse response).headers =
          some (NodeHeaderValue.arr response.headers.setCookies)) ∧
      (response.supportsGetSetCookie = false → response.headers.setCookies = [] →
        lookupAssoc "set-cookie" (sendResponse response).headers = none) ∧
      (response.supportsGetSetCookie = false → response.headers.setCookies ≠ [] →
        String.intercalate ", " response.headers.setCookies ≠ "" →
        lookupAssoc "set-cookie" (sendResponse response).headers =
          some (NodeHeaderValue.str
            (String.intercalate ", " response.headers.setCookies)))) := by
  intro response
  refine ⟨rfl, ?_⟩
  intro hnd hlow
  have hhdrs : (sendResponse response).headers =
      (fetchHeadersForEachEntries response.headers).foldl sendHeaderStep
        (match sendSetCookieValue response with
         | some v => setAssoc [] "set-cookie" v
         | none => []) := rfl
  have htail : ∀ e ∈ (match fetchHeadersGetSetCookie response.headers with
      | some s => [(("set-cookie" : String), s)]
      | none => ([] : List (String × String))), strToLower e.1 = "set-cookie" := by
    cases h : fetchHeadersGetSetCookie response.headers with
    | none => simp
    | some s =>
      intro e he
      simp only [List.mem_singleton] at he
      rw [he]
      show strToLower "set-cookie" = "set-cookie"
      decide
  refine ⟨?_, ?_, ?_, ?_⟩
  · intro k v hmem
    have hk : strToLower k ≠ "set-cookie" := hlow (k, v) hmem
    rw [hhdrs]
    unfold fetchHeadersForEachEntries
    rw [List.foldl_append]
    rw [sendHeaders_fold_skip _ _ k (fun e he => Or.inl (htail e he))]
    exact sendHeaders_fold_mem response.headers.others k v hk hnd hmem _
  have hall : ∀ e ∈ fetchHeadersForEachEntries response.headers,
      strToLower e.1 = "set-cookie" ∨ e.1 ≠ "set-cookie" := by
    intro e he
    unfold fetchHeadersForEachEntries at he
    rcases List.mem_append.mp he with h1 | h1
    · exact Or.inr (toLower_ne_of_setCookie (hlow e h1))
    · exact Or.inl (htail e h1)
  · intro hsup
    rw [hhdrs, sendHeaders_fold_skip _ _ "set-cookie" hall]
    simp [sendSetCookieValue, hsup, lookupAssoc_set_self]
  · intro hsup hempty
    have hall : ∀ e ∈ fetchHeadersForEachEntries response.headers,
        strToLower e.1 = "set-cookie" ∨ e.1 ≠ "set-cookie" := by
      intro e he
      unfold fetchHeadersForEachEntries at he
      rcases List.mem_append.mp he with h1 | h1
      · exact Or.inr (toLower_ne_of_setCookie (hlow e h1))
      · exact Or.inl (htail e h1)
    rw [hhdrs, sendHeaders_fold_skip _ _ "set-cookie" hall]
    simp [sendSetCookieValue, hsup, fetchHeadersGetSetCookie, hempty, lookupAssoc]
  · intro hsup hne hjoin
    have hall : ∀ e ∈ fetchHeadersForEachEntries response.headers,
        strToLower e.1 = "set-cookie" ∨ e.1 ≠ "set-cookie" := by
      intro e he
      unfold fetchHeadersForEachEntries at he
      rcases List.mem_append.mp he with h1 | h1
      · exact Or.inr (toLower_ne_of_setCookie (hlow e h1))
      · exact Or.inl (htail e h1)
    rw [hhdrs, sendHeaders_fold_skip _ _ "set-cookie" hall]
    simp [sendSetCookieValue, hsup, fetchHeadersGetSetCookie, hne, hjoin,
      lookupAssoc_set_self]

/-- Witness for C6: a concrete response with two set-cookie values and a
content-type header, in an environment supporting getSetCookie, yields
both cookies as distinct occurrences and the copied content-type. -/
theorem sendResponse_C6_witness :
    lookupAssoc "set-cookie"
      (sendResponse (EmulatorResponse.mk 200
        (FetchHeaders.mk [("content-type", "text/html")] ["a=1", "b=2"]) true)).headers =
      some (NodeHeaderValue.arr ["a=1", "b=2"]) ∧
    lookupAssoc "content-type"
      (sendResponse (EmulatorResponse.mk 200
        (FetchHeaders.mk [("content-type", "text/html")] ["a=1", "b=2"]) true)).headers =
      some (NodeHeaderValue.str "text/html") :=
  ⟨((sendResponse_C6 (EmulatorResponse.mk 200
      (FetchHeaders.mk [("content-type", "text/html")] ["a=1", "b=2"]) true)).2
      (by decide) (by decide)).2.1 rfl,
    ((sendResponse_C6 (EmulatorResponse.mk 200
      (FetchHeaders.mk [("content-type", "text/html")] ["a=1", "b=2"]) true)).2
      (by decide) (by decide)).1 "content-type" "text/html" (by decide)⟩

theorem lookupAssoc_filter_ne {β : Type} (l : List (String × β)) (k bad : String)
    (hk : k ≠ bad) :
    lookupAssoc k (l.filter (fun e => e.1 ≠ bad)) = lookupAssoc k l := by
  have hbk : ¬ (bad = k) := fun h => hk h.symm
  induction l with
  | nil => rfl
  | cons e rest ih =>
    simp only [decide_not] at ih
    by_cases hb : e.1 = bad
    · simp [List.filter_cons, hb, lookupAssoc, hbk, ih]
    · by_cases hek : e.1 = k
      · simp [List.filter_cons, hb, lookupAssoc, hek, hk, hbk, ih]
      · simp [List.filter_cons, hb, lookupAssoc, hek, hk, hbk, ih]

theorem lookupAssoc_filter_self {β : Type} (l : List (String × β)) (bad : String) :
    lookupAssoc bad (l.filter (fun e => e.1 ≠ bad)) = none := by
  induction l with
  | nil => rfl
  | cons e rest ih =>
    simp only [decide_not] at ih
    by_cases hb : e.1 = bad
    · simp [List.filter_cons, hb, ih]
    · simp [List.filter_cons, hb, lookupAssoc, ih]

theorem extractNonce_concrete :
    extractNonce ("script-src " ++ String.mk [squote] ++ "nonce-abc123" ++ String.mk [squote]) =
      some "abc123" := by
  decide

/-- Claim C7: with injection enabled, an HTML response (content-type
matching the anchored text/html test) keeps its status, keeps all its
headers except content-length (which is removed), and gains the client
script appended to its body; when the response carries the CSP header
value script-src with the nonce token abc123, the appended script tag
carries the nonce attribute abc123; a non-HTML response is returned
unmodified. -/
theorem injectClientScript_C7 :
    ∀ (posixJoin : String → String → String) (viteBase : String) (response : HtmlResponse),
    (∀ contentType, lookupAssoc "content-type" response.headers = some contentType →
      strStartsWith contentType "text/html" = true →
      (maybeInjectClientScript true posixJoin viteBase response).status = response.status ∧
      (maybeInjectClientScript true posixJoin viteBase response).bodyText =
        response.bodyText ++ clientScriptFor posixJoin viteBase response ∧
      lookupAssoc "content-length"
        (maybeInjectClientScript true posixJoin viteBase response).headers = none ∧
      (∀ k, k ≠ "content-length" →
        lookupAssoc k (maybeInjectClientScript true posixJoin viteBase response).headers =
          lookupAssoc k response.headers) ∧
      (lookupAssoc "content-security-policy" response.headers =
          some ("script-src " ++ String.mk [squote] ++ "nonce-abc123" ++ String.mk [squote]) →
        clientScriptFor posixJoin viteBase response =
          scriptTag (some "abc123") (posixJoin viteBase "/@vite/client"))) ∧
    (lookupAssoc "content-type" response.headers = none →
      maybeInjectClientScript true posixJoin viteBase response = response) ∧
    (∀ contentType, lookupAssoc "content-type" response.headers = some contentType →
      strStartsWith contentType "text/html" = false →
      maybeInjectClientScript true posixJoin viteBase response = response) := by
  intro posixJoin viteBase response
  refine ⟨?_, ?_, ?_⟩
  · intro contentType hct hhtml
    have heq : maybeInjectClientScript true posixJoin viteBase response =
        injectStringToResponse response (clientScriptFor posixJoin viteBase response) := by
      simp [maybeInjectClientScript, hct, hhtml]
    rw [heq]
    refine ⟨rfl, rfl, ?_, ?_, ?_⟩
    · exact lookupAssoc_filter_self response.headers "content-length"
    · intro k hk
      exact lookupAssoc_filter_ne response.headers k "content-length" hk
    · intro hcsp
      unfold clientScriptFor
      rw [hcsp]
      simp [extractNonce_concrete]
  · intro hct
    simp [maybeInjectClientScript, hct]
  · intro contentType hct hhtml
    simp [maybeInjectClientScript, hct, hhtml]

/-- Witness for C7: a concrete HTML response carrying a CSP nonce and a
content-length header, injected against a concrete join function. -/
theorem injectClientScript_C7_witness :
    (maybeInjectClientScript true (fun a b => a ++ b) "" (HtmlResponse.mk 200
      [("content-type", "text/html"), ("content-length", "10"),
        ("content-security-policy",
          "script-src " ++ String.mk [squote] ++ "nonce-abc123" ++ String.mk [squote])]
      "<html>")).bodyText =
      "<html>" ++ clientScriptFor (fun a b => a ++ b) "" (HtmlResponse.mk 200
        [("content-type", "text/html"), ("content-length", "10"),
          ("content-security-policy",
            "script-src " ++ String.mk [squote] ++ "nonce-abc123" ++ String.mk [squote])]
        "<html>") ∧
    lookupAssoc "content-length"
      (maybeInjectClientScript true (fun a b => a ++ b) "" (HtmlResponse.mk 200
        [("content-type", "text/html"), ("content-length", "10"),
          ("content-security-policy",
            "script-src " ++ String.mk [squote] ++ "nonce-abc123" ++ String.mk [squote])]
        "<html>")).headers = none ∧
    clientScriptFor (fun a b => a ++ b) "" (HtmlResponse.mk 200
      [("content-type", "text/html"), ("content-length", "10"),
        ("content-security-policy",
          "script-src " ++ String.mk [squote] ++ "nonce-abc123" ++ String.mk [squote])]
      "<html>") = scriptTag (some "abc123") ((fun a b => a ++ b) "" "/@vite/client") :=
  ⟨((injectClientScript_C7 (fun a b => a ++ b) "" _).1 "text/html" (by decide)
      (by decide)).2.1,
    ((injectClientScript_C7 (fun a b => a ++ b) "" _).1 "text/html" (by decide)
      (by decide)).2.2.1,
    ((injectClientScript_C7 (fun a b => a ++ b) "" _).1 "text/html" (by decide)
      (by decide)).2.2.2.2 (by decide)⟩

theorem validTrace_append (s : BuildFlags) (l1 l2 : List BuildEvent)
    (h : validTrace s (l1 ++ l2) = true) : validTrace s l1 = true := by
  induction l1 generalizing s with
  | nil => rfl
  | cons e rest ih =>
    cases e with
    | request =>
      simp only [List.cons_append, validTrace] at h ⊢
      exact ih _ h
    | complete b =>
      simp only [List.cons_append, validTrace, Bool.and_eq_true] at h ⊢
      exact ⟨h.1, ih _ h.2⟩

theorem flagsInv_request (s : BuildFlags) (h : flagsInv s) :
    flagsInv (rebuildWorkerCall s).1 := by
  unfold flagsInv rebuildWorkerCall at *
  by_cases hb : s.buildInProgress = true
  · simp [hb] at h ⊢
    exact h
  · simp [hb] at h ⊢
    simp [Bool.not_eq_true] at hb
    simp [hb, h]

theorem flagsInv_finally (s : BuildFlags) (h : flagsInv s) (hb : s.buildInProgress = true) :
    flagsInv (rebuildWorkerFinally s).1 := by
  unfold flagsInv at h
  rw [hb] at h
  simp at h
  unfold rebuildWorkerFinally rebuildWorkerCall flagsInv
  by_cases hq : s.buildQueued = true
  · simp [hq, h]
  · simp [Bool.not_eq_true] at hq
    simp [hq, h]

theorem flagsInv_run (s : BuildFlags) (evs : List BuildEvent) (h : flagsInv s)
    (hv : validTrace s evs = true) : flagsInv (runBuild s evs).1 := by
  induction evs generalizing s with
  | nil => exact h
  | cons e rest ih =>
    cases e with
    | request =>
      simp only [validTrace] at hv
      exact ih _ (flagsInv_request s h) hv
    | complete b =>
      simp only [validTrace, Bool.and_eq_true] at hv
      exact ih _ (flagsInv_finally s h hv.1) hv.2

theorem flagsInv_le_one (s : BuildFlags) (h : flagsInv s) : s.inFlight ≤ 1 := by
  unfold flagsInv at h
  by_cases hb : s.buildInProgress = true
  · simp [hb] at h
    omega
  · simp [Bool.not_eq_true] at hb
    simp [hb] at h
    omega

theorem runBuild_append (s : BuildFlags) (l1 l2 : List BuildEvent) :
    (runBuild s (l1 ++ l2)).1 = (runBuild (runBuild s l1).1 l2).1 ∧
    (runBuild s (l1 ++ l2)).2 = (runBuild s l1).2 + (runBuild (runBuild s l1).1 l2).2 := by
  induction l1 generalizing s with
  | nil => simp [runBuild]
  | cons e rest ih =>
    simp only [List.cons_append, runBuild, List.append_eq]
    refine ⟨(ih _).1, ?_⟩
    rw [(ih _).2]
    omega

theorem eta_queued (s : BuildFlags) (hq : s.buildQueued = true) :
    { s with buildQueued := true } = s := by
  obtain ⟨bi, bq, fl⟩ := s
  simp only at hq
  rw [hq]

theorem runBuild_requests_queued (n : Nat) :
    ∀ s : BuildFlags, s.buildInProgress = true → s.buildQueued = true →
      runBuild s (List.replicate n BuildEvent.request) = (s, 0) := by
  induction n with
  | zero => intro s _ _; rfl
  | succ m ih =>
    intro s hb hq
    have hcall : rebuildWorkerCall s = (s, 0) := by
      unfold rebuildWorkerCall
      rw [if_pos hb, eta_queued s hq]
    rw [List.replicate_succ]
    simp only [runBuild, buildStep, hcall]
    rw [ih s hb hq]
    simp

theorem runBuild_requests (n : Nat) (s : BuildFlags) (hb : s.buildInProgress = true)
    (hn : 1 ≤ n) :
    runBuild s (List.replicate n BuildEvent.request) =
      ({ s with buildQueued := true }, 0) := by
  obtain ⟨m, rfl⟩ : ∃ m, n = m + 1 := ⟨n - 1, by omega⟩
  have hcall : rebuildWorkerCall s = ({ s with buildQueued := true }, 0) := by
    unfold rebuildWorkerCall
    rw [if_pos hb]
  rw [List.replicate_succ]
  simp only [runBuild, buildStep, hcall]
  rw [runBuild_requests_queued m { s with buildQueued := true } hb rfl]
  simp

/-- Claim C1: along every valid event trace from the initial state at
most one bundler invocation is in flight; a rebuild call during an
in-flight build only sets the queued flag and starts nothing; the
completion handler behaves identically on success and on failure,
always clears the queued flag, leaves a build in progress exactly when
a follow-up was queued, and starts exactly one follow-up build iff the
queued flag was set; and any positive number of rebuild requests during
one in-flight build coalesce so that its completion starts exactly one
follow-up build. -/
theorem rebuildWorker_C1 :
    (∀ l1 l2 : List BuildEvent, validTrace initFlags (l1 ++ l2) = true →
      (runBuild initFlags l1).1.inFlight ≤ 1) ∧
    (∀ s : BuildFlags, s.buildInProgress = true →
      rebuildWorkerCall s = ({ s with buildQueued := true }, 0)) ∧
    (∀ (s : BuildFlags) (b : Bool),
      buildStep s (BuildEvent.complete b) = buildStep s (BuildEvent.complete true)) ∧
    (∀ s : BuildFlags, s.buildInProgress = true →
      (rebuildWorkerFinally s).2 = (if s.buildQueued then 1 else 0) ∧
      (rebuildWorkerFinally s).1.buildQueued = false ∧
      (rebuildWorkerFinally s).1.buildInProgress = s.buildQueued) ∧
    (∀ (s : BuildFlags) (n : Nat) (b : Bool), s.buildInProgress = true →
      s.buildQueued = false → 1 ≤ n →
      (runBuild s (List.replicate n BuildEvent.request ++ [BuildEvent.complete b])).2 = 1) := by
  refine ⟨?_, ?_, ?_, ?_, ?_⟩
  · intro l1 l2 hv
    have h1 : validTrace initFlags l1 = true := validTrace_append _ _ _ hv
    have h0 : flagsInv initFlags := rfl
    exact flagsInv_le_one _ (flagsInv_run initFlags l1 h0 h1)
  · intro s hb
    unfold rebuildWorkerCall
    rw [if_pos hb]
  · intro s b
    rfl
  · intro s hb
    unfold rebuildWorkerFinally rebuildWorkerCall
    by_cases hq : s.buildQueued = true
    · simp [hq]
    · simp [Bool.not_eq_true] at hq
      simp [hq]
  · intro s n b hb hq hn
    rw [(runBuild_append s (List.replicate n BuildEvent.request) [BuildEvent.complete b]).2,
      runBuild_requests n s hb hn]
    have hfin : (rebuildWorkerFinally { s with buildQueued := true }).2 = 1 := by
      unfold rebuildWorkerFinally rebuildWorkerCall
      simp
    simp only [runBuild, buildStep]
    omega

/-- Witness for C1: a concrete valid trace (request, two coalesced
requests during the build, a failing completion, the follow-up build,
a successful completion), with the coalescing conjunct applied at a
concrete in-flight state. -/
theorem rebuildWorker_C1_witness :
    (runBuild initFlags [BuildEvent.request, BuildEvent.request]).1.inFlight ≤ 1 ∧
    (runBuild (BuildFlags.mk true false 1)
      (List.replicate 3 BuildEvent.request ++ [BuildEvent.complete false])).2 = 1 :=
  ⟨rebuildWorker_C1.1 [BuildEvent.request, BuildEvent.request]
      [BuildEvent.complete false, BuildEvent.complete true] (by decide),
    rebuildWorker_C1.2.2.2.2 (BuildFlags.mk true false 1) 3 false rfl rfl (by decide)⟩
